import Mathlib

/-!
Verification of the array-backed binary heap engine of the heap
visualization (`src/script.js`).

The JavaScript heap stores its keys in a 1-indexed array whose slot 0 is an
unused sentinel (`this.heap = [null]`).  We embed the storage as a
`List Int` holding exactly the occupied slots, so that heap index `i`
(`1 ≤ i ≤ size`) corresponds to list position `i - 1` and the JavaScript
array length equals `h.length + 1`.

The two variants (`MaxHeap`, `MinHeap`) differ only in the direction of
every comparison; we embed the shared algorithm once, parameterized by the
boolean comparison `lt` that the code uses to decide that a parent is on
the wrong side of its child (`lt a b` plays the role of `a < b` for the
Max variant and of `a > b` for the Min variant).
-/

namespace Heaping

/-- JS: `const parent = (index) => Math.floor(index / 2)` -/
def parent (index : Nat) : Nat := index / 2

/-- JS: `const left_child = (index) => 2 * index` -/
def left_child (index : Nat) : Nat := 2 * index

/-- JS: `const right_child = (index) => 2 * index + 1` -/
def right_child (index : Nat) : Nat := 2 * index + 1

/-- Read of the 1-indexed storage slot `i`: `this.heap[i]`. -/
def hget (h : List Int) (i : Nat) : Int := h.getD (i - 1) 0

/-- Write of the 1-indexed storage slot `i`: `this.heap[i] = v`. -/
def hset (h : List Int) (i : Nat) (v : Int) : List Int := h.set (i - 1) v

/-- Logical part of `BaseHeap.swap` (step 6 of the animation sequence):
`[this.heap[i], this.heap[j]] = [this.heap[j], this.heap[i]]`. -/
def swap (h : List Int) (i j : Nat) : List Int :=
  hset (hset h i (hget h j)) j (hget h i)

/-- JS: `peek() { return this.heap.length > 1 ? this.heap[1] : null; }` -/
def peek (h : List Int) : Option Int :=
  if h.length + 1 > 1 then some (hget h 1) else none

/-- JS: `isEmpty() { return this.heap.length <= 1; }` -/
def isEmpty (h : List Int) : Bool := h.length + 1 ≤ 1

/-- The left-stage candidate of the sift-down selection:
`if (left < n && this.heap[left] > this.heap[largest]) largest = left;`
(at this point `largest` is still `index`). -/
def selL (lt : Int → Int → Bool) (h : List Int) (index : Nat) : Nat :=
  if left_child index < h.length + 1 &&
     lt (hget h index) (hget h (left_child index)) then left_child index
  else index

/-- The final candidate of the sift-down selection:
`if (right < n && this.heap[right] > this.heap[largest]) largest = right;` -/
def sel (lt : Int → Int → Bool) (h : List Int) (index : Nat) : Nat :=
  if right_child index < h.length + 1 &&
     lt (hget h (selL lt h index)) (hget h (right_child index)) then
    right_child index
  else selL lt h index

theorem selL_length : ∀ (lt : Int → Int → Bool) (h : List Int) (i : Nat),
    selL lt h i = i ∨ (selL lt h i = 2 * i ∧ 2 * i < h.length + 1) := by
  intro lt h i
  unfold selL left_child
  split
  · rename_i hc
    rw [Bool.and_eq_true, decide_eq_true_eq] at hc
    exact Or.inr ⟨rfl, hc.1⟩
  · exact Or.inl rfl

theorem sel_gt (lt : Int → Int → Bool) (h : List Int) (i : Nat)
    (hne : sel lt h i ≠ i) : i < sel lt h i ∧ sel lt h i < h.length + 1 := by
  unfold sel right_child at hne ⊢
  split at hne
  · rename_i hc
    rw [Bool.and_eq_true, decide_eq_true_eq] at hc
    rw [if_pos (by rw [Bool.and_eq_true, decide_eq_true_eq]; exact hc)]
    exact ⟨by omega, hc.1⟩
  · rename_i hc
    rw [if_neg hc]
    rcases selL_length lt h i with h1 | h1
    · rw [h1] at hne; exact absurd rfl hne
    · rw [h1.1] at hne ⊢
      have : 2 * i ≠ i := hne
      exact ⟨by omega, h1.2⟩

theorem length_swap (h : List Int) (i j : Nat) :
    (swap h i j).length = h.length := by
  simp [swap, hset]

/-- `MaxHeap.heapify` / `MinHeap.heapify` (sift-down), logical content:
select the extreme among the node and its in-range children, and if it is
a child, swap and recurse there. -/
def heapify (lt : Int → Int → Bool) (h : List Int) (index : Nat) : List Int :=
  if hne : sel lt h index ≠ index then
    heapify lt (swap h index (sel lt h index)) (sel lt h index)
  else h
termination_by h.length + 1 - index
decreasing_by
  rw [length_swap]
  have := sel_gt lt h index hne
  omega

/-- The sift-up loop shared by `insert` and `restoreHeap`:
`while (index > 1) { ... if (heap[parent] < heap[index]) swap else break }`. -/
def siftUp (lt : Int → Int → Bool) (h : List Int) (index : Nat) : List Int :=
  if 1 < index then
    if lt (hget h (parent index)) (hget h index) then
      siftUp lt (swap h (parent index) index) (parent index)
    else h
  else h
termination_by index
decreasing_by
  unfold parent
  omega

/-- `MaxHeap.insert` / `MinHeap.insert`, logical content: push the value
and sift it up from the freshly appended index `this.heap.length - 1`. -/
def insert (lt : Int → Int → Bool) (h : List Int) (value : Int) : List Int :=
  siftUp lt (h ++ [value]) (h ++ [value]).length

/-- `MaxHeap.extract` / `MinHeap.extract`, logical content.  Returns the
captured root (or `none` on the empty heap) and the resulting storage. -/
def extract (lt : Int → Int → Bool) (h : List Int) : Option Int × List Int :=
  if isEmpty h then (none, h)
  else if h.length + 1 = 2 then (some (hget h 1), h.dropLast)
  else (some (hget h 1),
        heapify lt (hset h.dropLast 1 (hget h h.length)) 1)

/-- `restoreHeap` of the two variants: sift up when the replacement beats
its parent, otherwise sift down. -/
def restoreHeap (lt : Int → Int → Bool) (h : List Int) (index : Nat) :
    List Int :=
  if 1 < index ∧ lt (hget h (parent index)) (hget h index) = true then
    siftUp lt h index
  else heapify lt h index

/-- `BaseHeap.deleteAtIndex`, logical content.  Returns the
`{ success, value }` record together with the resulting storage. -/
def deleteAtIndex (lt : Int → Int → Bool) (h : List Int) (index : Nat) :
    (Bool × Option Int) × List Int :=
  if index < 1 ∨ index > h.length then ((false, none), h)
  else if index = h.length then ((true, some (hget h index)), h.dropLast)
  else ((true, some (hget h index)),
        restoreHeap lt (swap h index h.length).dropLast index)

/-- The bottom-up build loop of `loadArrayHandler` / `handleTypeChange`:
`for (let i = parent(n - 1); i >= 1; i--) { await newHeap.heapify(i); }`,
unrolled as a recursion on the loop counter. -/
def buildFrom (lt : Int → Int → Bool) (h : List Int) : Nat → List Int
  | 0 => h
  | i + 1 => buildFrom lt (heapify lt h (i + 1)) i

/-- `loadArrayHandler` after input parsing: replace the storage with the
given values and repair heap order bottom-up from `parent(n - 1)`. -/
def bulkLoad (lt : Int → Int → Bool) (values : List Int) : List Int :=
  buildFrom lt values (parent values.length)

/-- The Max variant comparison: `this.heap[parentIndex] < this.heap[index]`
(and `this.heap[left] > this.heap[largest]`, read as the same relation with
the arguments flipped). -/
def ltMax (a b : Int) : Bool := a < b

/-- The Min variant comparison: `this.heap[parentIndex] > this.heap[index]`. -/
def ltMin (a b : Int) : Bool := b < a

/-- The properties of a strict total order that the invariant proofs use;
both variant comparisons satisfy them. -/
structure LtSpec (lt : Int → Int → Bool) : Prop where
  irrefl : ∀ a, lt a a = false
  asymm : ∀ a b, lt a b = true → lt b a = false
  lt_trans : ∀ a b c, lt a b = true → lt b c = true → lt a c = true
  ge_trans : ∀ a b c, lt a b = false → lt b c = false → lt a c = false

theorem ltMax_spec : LtSpec ltMax := by
  constructor <;> intro a <;> simp [ltMax] <;> omega

theorem ltMin_spec : LtSpec ltMin := by
  constructor <;> intro a <;> simp [ltMin] <;> omega

/-- Heap-order invariant: for every occupied index `i > 1`, the parent is
not on the wrong side of the variant's comparison. -/
def isHeap (lt : Int → Int → Bool) (h : List Int) : Prop :=
  ∀ i, 2 ≤ i → i ≤ h.length → lt (hget h (parent i)) (hget h i) = false

theorem isHeap_iff_range (lt : Int → Int → Bool) (h : List Int) :
    isHeap lt h ↔ ∀ i < h.length + 1,
      2 ≤ i → lt (hget h (parent i)) (hget h i) = false := by
  constructor
  · intro hh i hlt h2
    exact hh i h2 (by omega)
  · intro hh i h2 hle
    exact hh i (by omega) h2

instance (lt : Int → Int → Bool) (h : List Int) : Decidable (isHeap lt h) :=
  decidable_of_iff _ (isHeap_iff_range lt h).symm

/-! ### Pointwise characterization of the storage primitives -/

theorem length_hset (h : List Int) (i : Nat) (v : Int) :
    (hset h i v).length = h.length := by
  simp [hset]

theorem hget_hset_self (h : List Int) (i : Nat) (v : Int)
    (h1 : 1 ≤ i) (h2 : i ≤ h.length) : hget (hset h i v) i = v := by
  unfold hget hset
  have hlt : i - 1 < h.length := by omega
  simp [List.getD_eq_getElem?_getD, List.getElem?_set_self, hlt]

theorem hget_hset_ne (h : List Int) (i k : Nat) (v : Int)
    (h1 : 1 ≤ i) (h1k : 1 ≤ k) (hne : i ≠ k) : hget (hset h i v) k = hget h k := by
  unfold hget hset
  have : i - 1 ≠ k - 1 := by omega
  simp [List.getD_eq_getElem?_getD, List.getElem?_set_ne this]

theorem hget_swap_left (h : List Int) (i j : Nat)
    (h1 : 1 ≤ i) (h2 : i ≤ h.length) (hne : i ≠ j) (h1j : 1 ≤ j) :
    hget (swap h i j) i = hget h j := by
  unfold swap
  rw [hget_hset_ne _ _ _ _ h1j h1 (by omega), hget_hset_self _ _ _ h1 h2]

theorem hget_swap_right (h : List Int) (i j : Nat)
    (h1 : 1 ≤ j) (h2 : j ≤ h.length) : hget (swap h i j) j = hget h i := by
  unfold swap
  rw [hget_hset_self _ _ _ h1 (by rw [length_hset]; exact h2)]

theorem hget_swap_other (h : List Int) (i j k : Nat)
    (h1i : 1 ≤ i) (h1j : 1 ≤ j) (h1k : 1 ≤ k)
    (hki : k ≠ i) (hkj : k ≠ j) : hget (swap h i j) k = hget h k := by
  unfold swap
  rw [hget_hset_ne _ _ _ _ h1j h1k (by omega), hget_hset_ne _ _ _ _ h1i h1k (by omega)]

/-! ### The logical swap is a permutation -/

theorem getD_cons_set_perm : ∀ (t : List Int) (k : Nat) (a : Int),
    k < t.length → (t.getD k 0 :: t.set k a).Perm (a :: t) := by
  intro t
  induction t with
  | nil => intro k a hk; simp at hk
  | cons b s ih =>
    intro k a hk
    cases k with
    | zero => simpa using List.Perm.swap a b s
    | succ m =>
      simp only [List.getD_cons_succ, List.set_cons_succ]
      have hm : m < s.length := by simpa using hk
      exact (List.Perm.swap b (s.getD m 0) (s.set m a)).trans
        ((List.Perm.cons b (ih m a hm)).trans (List.Perm.swap a b s))

theorem set_set_perm : ∀ (l : List Int) (p q : Nat),
    p < l.length → q < l.length → p ≠ q →
    ((l.set p (l.getD q 0)).set q (l.getD p 0)).Perm l := by
  intro l
  induction l with
  | nil => intro p q hp; simp at hp
  | cons b t ih =>
    intro p q hp hq hne
    cases p with
    | zero =>
      cases q with
      | zero => exact absurd rfl hne
      | succ m =>
        simp only [List.getD_cons_succ, List.set_cons_zero, List.set_cons_succ,
          List.getD_cons_zero]
        exact getD_cons_set_perm t m b (by simpa using hq)
    | succ s =>
      cases q with
      | zero =>
        simp only [List.getD_cons_succ, List.set_cons_succ, List.set_cons_zero,
          List.getD_cons_zero]
        exact getD_cons_set_perm t s b (by simpa using hp)
      | succ m =>
        simp only [List.getD_cons_succ, List.set_cons_succ]
        exact List.Perm.cons b
          (ih s m (by simpa using hp) (by simpa using hq) (by omega))

theorem swap_perm (h : List Int) (i j : Nat)
    (h1i : 1 ≤ i) (h2i : i ≤ h.length) (h1j : 1 ≤ j) (h2j : j ≤ h.length)
    (hne : i ≠ j) : (swap h i j).Perm h := by
  unfold swap hset hget
  exact set_set_perm h (i - 1) (j - 1) (by omega) (by omega) (by omega)

/-! ### The subtree (descendant) relation on 1-based heap indices -/

/-- `Desc i k` holds when index `k` lies in the subtree rooted at `i`
(children of `i` being `2*i` and `2*i+1`). -/
inductive Desc : Nat → Nat → Prop where
  | refl (i : Nat) : Desc i i
  | goLeft (i : Nat) {k : Nat} : Desc (2 * i) k → Desc i k
  | goRight (i : Nat) {k : Nat} : Desc (2 * i + 1) k → Desc i k

theorem Desc.le : ∀ {i j : Nat}, Desc i j → i ≤ j := by
  intro i j hd
  induction hd with
  | refl => exact Nat.le_refl _
  | goLeft i _ ih => omega
  | goRight i _ ih => omega

theorem Desc.childLeft (i : Nat) : Desc i (2 * i) := .goLeft i (.refl _)

theorem Desc.childRight (i : Nat) : Desc i (2 * i + 1) := .goRight i (.refl _)

theorem Desc.dtrans : ∀ {i j k : Nat}, Desc i j → Desc j k → Desc i k := by
  intro i j k hij hjk
  induction hij with
  | refl => exact hjk
  | goLeft i _ ih => exact .goLeft i (ih hjk)
  | goRight i _ ih => exact .goRight i (ih hjk)

theorem Desc.ofParent (i : Nat) : Desc (i / 2) i := by
  rcases Nat.even_or_odd i with ⟨m, hm⟩ | ⟨m, hm⟩
  · subst hm
    have : (m + m) / 2 = m := by omega
    rw [this]
    have : m + m = 2 * m := by omega
    rw [this]
    exact Desc.childLeft m
  · subst hm
    have : (2 * m + 1) / 2 = m := by omega
    rw [this]
    exact Desc.childRight m

theorem Desc.root : ∀ i : Nat, 1 ≤ i → Desc 1 i := by
  intro i
  induction i using Nat.strong_induction_on with
  | _ i ih =>
    intro h1
    rcases Nat.lt_or_ge i 2 with hlt | hge
    · have : i = 1 := by omega
      subst this; exact .refl 1
    · have h2 : i / 2 < i := by omega
      have h3 : 1 ≤ i / 2 := by omega
      exact (ih (i / 2) h2 h3).dtrans (Desc.ofParent i)

theorem Desc.toParent : ∀ {i j : Nat}, Desc i j → i < j → Desc i (j / 2) := by
  intro i j hd
  induction hd with
  | refl => intro hc; omega
  | goLeft i hsub ih =>
    intro _
    rcases Nat.eq_or_lt_of_le hsub.le with heq | hlt
    · rw [← heq]
      have h2 : 2 * i / 2 = i := by omega
      rw [h2]; exact .refl i
    · exact .goLeft i (ih hlt)
  | goRight i hsub ih =>
    intro _
    rcases Nat.eq_or_lt_of_le hsub.le with heq | hlt
    · rw [← heq]
      have h2 : (2 * i + 1) / 2 = i := by omega
      rw [h2]; exact .refl i
    · exact .goRight i (ih hlt)

theorem Desc.two_le : ∀ {i j : Nat}, Desc i j → i < j → 2 * i ≤ j := by
  intro i j hd hlt
  have := (hd.toParent hlt).le
  omega

theorem Desc.ofChild : ∀ {j i : Nat}, Desc j i → i ≠ j → Desc j (i / 2) := by
  intro j i hd hne
  exact hd.toParent (by rcases Nat.eq_or_lt_of_le hd.le with h | h; omega; omega)

theorem not_desc_of_lt {i j : Nat} (h : j < i) : ¬ Desc i j :=
  fun hd => absurd hd.le (by omega)

/-! ### Properties of the sift-down selection -/

theorem sel_cases (lt : Int → Int → Bool) (h : List Int) (i : Nat) :
    sel lt h i = i ∨ sel lt h i = 2 * i ∨ sel lt h i = 2 * i + 1 := by
  unfold sel right_child
  split
  · exact Or.inr (Or.inr rfl)
  · rcases selL_length lt h i with h1 | h1
    · exact Or.inl h1
    · exact Or.inr (Or.inl h1.1)

theorem selL_self (lt : Int → Int → Bool) (h : List Int) (i : Nat)
    (hi : 1 ≤ i) (hL : selL lt h i = i) :
    2 * i ≤ h.length → lt (hget h i) (hget h (2 * i)) = false := by
  intro hle
  unfold selL left_child at hL
  split at hL
  · omega
  · rename_i hc
    simp only [Bool.and_eq_true, decide_eq_true_eq, not_and, Bool.not_eq_true] at hc
    exact hc (by omega)

theorem selL_child (lt : Int → Int → Bool) (h : List Int) (i : Nat)
    (hi : 1 ≤ i) (hL : selL lt h i = 2 * i) :
    lt (hget h i) (hget h (2 * i)) = true ∧ 2 * i ≤ h.length := by
  unfold selL left_child at hL
  split at hL
  · rename_i hc
    rw [Bool.and_eq_true, decide_eq_true_eq] at hc
    exact ⟨hc.2, by omega⟩
  · omega

theorem sel_self (lt : Int → Int → Bool) (h : List Int) (i : Nat)
    (hi : 1 ≤ i) (hsel : sel lt h i = i) :
    (2 * i ≤ h.length → lt (hget h i) (hget h (2 * i)) = false) ∧
    (2 * i + 1 ≤ h.length → lt (hget h i) (hget h (2 * i + 1)) = false) := by
  have hL : selL lt h i = i := by
    rcases selL_length lt h i with h1 | h1
    · exact h1
    · exfalso
      unfold sel right_child at hsel
      split at hsel
      · omega
      · rw [h1.1] at hsel; omega
  refine ⟨selL_self lt h i hi hL, ?_⟩
  intro hle
  unfold sel right_child at hsel
  split at hsel
  · omega
  · rename_i hc
    rw [hL] at hc
    simp only [Bool.and_eq_true, decide_eq_true_eq, not_and, Bool.not_eq_true] at hc
    exact hc (by omega)

theorem sel_child (lt : Int → Int → Bool) (S : LtSpec lt) (h : List Int)
    (i : Nat) (hi : 1 ≤ i) (hne : sel lt h i ≠ i) :
    lt (hget h i) (hget h (sel lt h i)) = true ∧
    ∀ s, (s = 2 * i ∨ s = 2 * i + 1) → s ≠ sel lt h i → s ≤ h.length →
      lt (hget h (sel lt h i)) (hget h s) = false := by
  by_cases hg : (decide (right_child i < h.length + 1) &&
      lt (hget h (selL lt h i)) (hget h (right_child i))) = true
  · have hsel : sel lt h i = 2 * i + 1 := by
      unfold sel
      rw [if_pos hg]
      rfl
    rw [Bool.and_eq_true, decide_eq_true_eq] at hg
    unfold right_child at hg
    rcases selL_length lt h i with hL | hL
    · rw [hL] at hg
      refine ⟨by rw [hsel]; exact hg.2, ?_⟩
      intro s hs hsne hsle
      have hs2 : s = 2 * i := by rcases hs with h' | h' <;> omega
      subst hs2
      rw [hsel]
      have hfirst := selL_self lt h i hi hL hsle
      rcases hval : lt (hget h (2 * i + 1)) (hget h (2 * i)) with _ | _
      · rfl
      · exfalso
        have := S.lt_trans _ _ _ hg.2 hval
        rw [hfirst] at this
        exact Bool.false_ne_true this
    · rw [hL.1] at hg
      have hLc := selL_child lt h i hi hL.1
      refine ⟨by rw [hsel]; exact S.lt_trans _ _ _ hLc.1 hg.2, ?_⟩
      intro s hs hsne hsle
      have hs2 : s = 2 * i := by rcases hs with h' | h' <;> omega
      subst hs2
      rw [hsel]
      exact S.asymm _ _ hg.2
  · have hsel : sel lt h i = selL lt h i := by
      unfold sel
      rw [if_neg hg]
    rcases selL_length lt h i with hL | hL
    · rw [hL] at hsel; exact absurd hsel hne
    · have hLc := selL_child lt h i hi hL.1
      rw [hL.1] at hsel
      refine ⟨by rw [hsel]; exact hLc.1, ?_⟩
      intro s hs hsne hsle
      have hs2 : s = 2 * i + 1 := by
        rw [hsel] at hsne
        rcases hs with h' | h' <;> omega
      subst hs2
      rw [hsel]
      unfold right_child at hg
      simp only [Bool.and_eq_true, decide_eq_true_eq, not_and, Bool.not_eq_true] at hg
      rw [hL.1] at hg
      exact hg (by omega)

/-! ### Lengths and permutations of the mutating primitives -/

theorem heapify_length (lt : Int → Int → Bool) :
    ∀ (m : Nat) (h : List Int) (j : Nat), h.length + 1 - j = m →
    (heapify lt h j).length = h.length := by
  intro m
  induction m using Nat.strong_induction_on with
  | _ m ih =>
    intro h j hm
    rw [heapify]
    split
    · rename_i hne
      have hg := sel_gt lt h j hne
      rw [ih ((swap h j (sel lt h j)).length + 1 - sel lt h j)
        (by rw [length_swap]; omega) _ _ rfl, length_swap]
    · rfl

theorem heapify_perm (lt : Int → Int → Bool) :
    ∀ (m : Nat) (h : List Int) (j : Nat), h.length + 1 - j = m → 1 ≤ j →
    (heapify lt h j).Perm h := by
  intro m
  induction m using Nat.strong_induction_on with
  | _ m ih =>
    intro h j hm hj
    rw [heapify]
    split
    · rename_i hne
      have hg := sel_gt lt h j hne
      have hrec := ih ((swap h j (sel lt h j)).length + 1 - sel lt h j)
        (by rw [length_swap]; omega) _ _ rfl (by omega)
      exact hrec.trans (swap_perm h j (sel lt h j) hj (by omega) (by omega)
        (by omega) (by omega))
    · exact List.Perm.refl h

theorem siftUp_length (lt : Int → Int → Bool) :
    ∀ (index : Nat) (h : List Int), (siftUp lt h index).length = h.length := by
  intro index
  induction index using Nat.strong_induction_on with
  | _ index ih =>
    intro h
    rw [siftUp]
    split
    · split
      · rename_i h1 _
        rw [ih (parent index) (by unfold parent; omega), length_swap]
      · rfl
    · rfl

theorem siftUp_perm (lt : Int → Int → Bool) :
    ∀ (index : Nat) (h : List Int), index ≤ h.length →
    (siftUp lt h index).Perm h := by
  intro index
  induction index using Nat.strong_induction_on with
  | _ index ih =>
    intro h hle
    rw [siftUp]
    split
    · split
      · rename_i h1 _
        have hp : parent index < index := by unfold parent; omega
        have := ih (parent index) hp (swap h (parent index) index)
          (by rw [length_swap]; omega)
        refine this.trans (swap_perm h (parent index) index ?_ ?_ ?_ ?_ ?_) <;>
          (try unfold parent) <;> omega
      · exact List.Perm.refl h
    · exact List.Perm.refl h

/-- Main sift-down lemma.  If every pair strictly inside the subtree rooted
at `j` already satisfies heap order, then after `heapify` at `j` (a) every
pair whose parent lies in the subtree of `j` satisfies heap order, (b) no
slot outside the subtree of `j` changed, and (c) any value dominating the
old root and its direct children dominates the new value at `j`. -/
theorem heapify_main (lt : Int → Int → Bool) (S : LtSpec lt) :
    ∀ (m : Nat) (h : List Int) (j : Nat), h.length + 1 - j = m → 1 ≤ j →
    (∀ i, 2 ≤ i → i ≤ h.length → i / 2 ≠ j → Desc j (i / 2) →
      lt (hget h (i / 2)) (hget h i) = false) →
    (∀ i, 2 ≤ i → i ≤ h.length → Desc j (i / 2) →
      lt (hget (heapify lt h j) (i / 2)) (hget (heapify lt h j) i) = false)
    ∧ (∀ p, 1 ≤ p → ¬ Desc j p → hget (heapify lt h j) p = hget h p)
    ∧ (∀ z, lt z (hget h j) = false →
        (2 * j ≤ h.length → lt z (hget h (2 * j)) = false) →
        (2 * j + 1 ≤ h.length → lt z (hget h (2 * j + 1)) = false) →
        lt z (hget (heapify lt h j) j) = false) := by
  intro m
  induction m using Nat.strong_induction_on with
  | _ m ih =>
    intro h j hm hj hA
    by_cases hne : sel lt h j ≠ j
    case neg =>
      have heq : heapify lt h j = h := by rw [heapify, dif_neg hne]
      push_neg at hne
      rw [heq]
      refine ⟨?_, fun p _ _ => rfl, fun z hz _ _ => hz⟩
      intro i h2 hle hdesc
      by_cases hij : i / 2 = j
      · have hs := sel_self lt h j hj hne
        have hchild : i = 2 * j ∨ i = 2 * j + 1 := by omega
        rcases hchild with hcv | hcv
        · rw [hij, hcv]; exact hs.1 (by omega)
        · rw [hij, hcv]; exact hs.2 (by omega)
      · exact hA i h2 hle hij hdesc
    case pos =>
      have hgt := sel_gt lt h j hne
      have hchild := sel_child lt S h j hj hne
      have hcc : sel lt h j = 2 * j ∨ sel lt h j = 2 * j + 1 := by
        rcases sel_cases lt h j with h' | h' | h'
        · exact absurd h' hne
        · exact Or.inl h'
        · exact Or.inr h'
      obtain ⟨c, hcdef⟩ : ∃ x, sel lt h j = x := ⟨_, rfl⟩
      rw [hcdef] at hgt hchild hcc hne
      have hdjc : Desc j c := by
        rcases hcc with h' | h'
        · rw [h']; exact Desc.childLeft j
        · rw [h']; exact Desc.childRight j
      have heq : heapify lt h j = heapify lt (swap h j c) c := by
        rw [heapify, hcdef, dif_pos hne]
      have hlen1 : (swap h j c).length = h.length := length_swap h j c
      have hget1_j : hget (swap h j c) j = hget h c :=
        hget_swap_left h j c hj (by omega) (by omega) (by omega)
      have hget1_c : hget (swap h j c) c = hget h j :=
        hget_swap_right h j c (by omega) (by omega)
      have hget1_o : ∀ x, 1 ≤ x → x ≠ j → x ≠ c →
          hget (swap h j c) x = hget h x := fun x hx hxj hxc =>
        hget_swap_other h j c x hj (by omega) hx hxj hxc
      have hArec : ∀ i, 2 ≤ i → i ≤ (swap h j c).length → i / 2 ≠ c →
          Desc c (i / 2) → lt (hget (swap h j c) (i / 2))
            (hget (swap h j c) i) = false := by
        intro i h2 hle hic hdc
        have hcle : c < i / 2 := lt_of_le_of_ne hdc.le (Ne.symm hic)
        have h2c : 2 * c ≤ i / 2 := hdc.two_le hcle
        rw [hget1_o (i / 2) (by omega) (by omega) (by omega),
            hget1_o i (by omega) (by omega) (by omega)]
        exact hA i h2 (by omega) (by omega) (hdjc.dtrans hdc)
      obtain ⟨R1, R2, R3⟩ := ih ((swap h j c).length + 1 - c)
        (by rw [hlen1]; omega) (swap h j c) c rfl (by omega) hArec
      rw [heq]
      refine ⟨?_, ?_, ?_⟩
      · intro i h2 hle hdesc
        by_cases hdc : Desc c (i / 2)
        · exact R1 i h2 (by omega) hdc
        · by_cases hic : i = c
          · have hij : i / 2 = j := by rcases hcc with h' | h' <;> omega
            rw [hij, hic]
            have hjv : hget (heapify lt (swap h j c) c) j = hget h c := by
              rw [R2 j hj (not_desc_of_lt hgt.1), hget1_j]
            rw [hjv]
            apply R3 (hget h c)
            · rw [hget1_c]; exact S.asymm _ _ hchild.1
            · intro hle2
              rw [hget1_o (2 * c) (by omega) (by omega) (by omega)]
              have h2c2 : 2 * c / 2 = c := by omega
              have := hA (2 * c) (by omega) (by omega)
                (by rw [h2c2]; omega) (by rw [h2c2]; exact hdjc)
              rw [h2c2] at this
              exact this
            · intro hle2
              rw [hget1_o (2 * c + 1) (by omega) (by omega) (by omega)]
              have h2c2 : (2 * c + 1) / 2 = c := by omega
              have := hA (2 * c + 1) (by omega) (by omega)
                (by rw [h2c2]; omega) (by rw [h2c2]; exact hdjc)
              rw [h2c2] at this
              exact this
          · have hndi : ¬ Desc c i := fun hd => hdc (hd.ofChild hic)
            have hji : j ≤ i / 2 := hdesc.le
            have hij2 : i ≠ j := by omega
            rw [R2 i (by omega) hndi, R2 (i / 2) (by omega) hdc,
                hget1_o i (by omega) hij2 hic]
            by_cases hij : i / 2 = j
            · have hsib : i = 2 * j ∨ i = 2 * j + 1 := by omega
              rw [hij, hget1_j]
              exact hchild.2 i hsib hic hle
            · rw [hget1_o (i / 2) (by omega) hij
                (fun he => hdc (by rw [he]; exact Desc.refl c))]
              exact hA i h2 hle hij hdesc
      · intro p hp hnd
        have hpj : p ≠ j := fun he => hnd (by rw [he]; exact Desc.refl j)
        have hpc : p ≠ c := fun he => hnd (by rw [he]; exact hdjc)
        have hndc : ¬ Desc c p := fun hd => hnd (hdjc.dtrans hd)
        rw [R2 p hp hndc, hget1_o p hp hpj hpc]
      · intro z hzj hzl hzr
        rw [R2 j hj (not_desc_of_lt hgt.1), hget1_j]
        rcases hcc with h' | h'
        · rw [h']; exact hzl (by omega)
        · rw [h']; exact hzr (by omega)

theorem hget_append (h : List Int) (v : Int) (x : Nat)
    (h1 : 1 ≤ x) (h2 : x ≤ h.length) : hget (h ++ [v]) x = hget h x := by
  unfold hget
  rw [List.getD_eq_getElem?_getD, List.getD_eq_getElem?_getD,
    List.getElem?_append, if_pos (by omega)]

theorem hget_dropLast (h : List Int) (x : Nat)
    (h1 : 1 ≤ x) (h2 : x ≤ h.length - 1) : hget h.dropLast x = hget h x := by
  unfold hget
  rw [List.getD_eq_getElem?_getD, List.getD_eq_getElem?_getD,
    List.getElem?_dropLast]
  rw [if_pos (by omega)]

/-- Main sift-up lemma.  If the heap order holds at every pair except
possibly at `(k, parent k)`, and the grandparent of `k`'s children (when
`k` is not the root) dominates those children, sifting up from `k`
restores the full invariant. -/
theorem siftUp_main (lt : Int → Int → Bool) (S : LtSpec lt) :
    ∀ (k : Nat) (h : List Int), 1 ≤ k → k ≤ h.length →
    (∀ i, 2 ≤ i → i ≤ h.length → i ≠ k →
      lt (hget h (i / 2)) (hget h i) = false) →
    (2 ≤ k → ∀ i, 2 ≤ i → i ≤ h.length → i / 2 = k →
      lt (hget h (k / 2)) (hget h i) = false) →
    isHeap lt (siftUp lt h k) := by
  intro k
  induction k using Nat.strong_induction_on with
  | _ k ih =>
    intro h hk1 hk2 hQ1 hQ2
    rw [siftUp]
    split
    case isFalse hlt =>
      intro i h2 hle
      exact hQ1 i h2 hle (by omega)
    case isTrue hlt =>
      split
      case isFalse hcond =>
        intro i h2 hle
        by_cases hik : i = k
        · subst hik
          unfold parent at hcond
          rw [Bool.not_eq_true] at hcond
          exact hcond
        · exact hQ1 i h2 hle hik
      case isTrue hcond =>
        unfold parent at hcond ⊢
        have hp1 : 1 ≤ k / 2 := by omega
        have hpk : k / 2 < k := by omega
        have hgp : hget (swap h (k / 2) k) (k / 2) = hget h k :=
          hget_swap_left h (k / 2) k hp1 (by omega) (by omega) hk1
        have hgk : hget (swap h (k / 2) k) k = hget h (k / 2) :=
          hget_swap_right h (k / 2) k hk1 hk2
        have hgo : ∀ x, 1 ≤ x → x ≠ k / 2 → x ≠ k →
            hget (swap h (k / 2) k) x = hget h x := fun x hx hxp hxk =>
          hget_swap_other h (k / 2) k x hp1 hk1 hx hxp hxk
        apply ih (k / 2) hpk (swap h (k / 2) k) hp1
          (by rw [length_swap]; omega)
        · intro i h2 hle hip
          rw [length_swap] at hle
          by_cases hik : i = k
          · subst hik
            have hih : i / 2 = i / 2 := rfl
            rw [hgp, hgk]
            exact S.asymm _ _ hcond
          · by_cases hik2 : i / 2 = k
            · rw [hik2, hgk, hgo i (by omega) (by omega) hik]
              exact hQ2 (by omega) i h2 hle hik2
            · have hipne : i ≠ k / 2 := hip
              by_cases hip2 : i / 2 = k / 2
              · rw [hip2, hgp, hgo i (by omega) hipne hik]
                have hQi := hQ1 i h2 hle hik
                rw [hip2] at hQi
                rcases hval : lt (hget h k) (hget h i) with _ | _
                · rfl
                · exfalso
                  have := S.lt_trans _ _ _ hcond hval
                  rw [hQi] at this
                  exact Bool.false_ne_true this
              · rw [hgo i (by omega) hipne hik,
                  hgo (i / 2) (by omega) hip2 hik2]
                exact hQ1 i h2 hle hik
        · intro hp2 i h2 hle hip
          rw [length_swap] at hle
          have hppne : k / 2 / 2 ≠ k / 2 := by omega
          have hppnk : k / 2 / 2 ≠ k := by omega
          rw [hgo (k / 2 / 2) (by omega) hppne hppnk]
          by_cases hik : i = k
          · rw [hik, hgk]
            exact hQ1 (k / 2) (by omega) (by omega) (by omega)
          · rw [hgo i (by omega) (by omega) hik]
            have hik2 : i ≠ k / 2 := by omega
            have h1 := hQ1 (k / 2) (by omega) (by omega) (by omega)
            have h2i := hQ1 i h2 hle hik
            rw [hip] at h2i
            exact S.ge_trans _ _ _ h1 h2i

theorem insert_isHeap (lt : Int → Int → Bool) (S : LtSpec lt)
    (h : List Int) (v : Int) (hh : isHeap lt h) :
    isHeap lt (insert lt h v) := by
  unfold insert
  have hlen : (h ++ [v]).length = h.length + 1 := by simp
  apply siftUp_main lt S (h ++ [v]).length (h ++ [v]) (by omega) (by omega)
  · intro i h2 hle hik
    rw [hlen] at hik hle
    have hile : i ≤ h.length := by omega
    rw [hget_append h v i (by omega) hile,
        hget_append h v (i / 2) (by omega) (by omega)]
    exact hh i h2 hile
  · intro hk2 i h2 hle hip
    rw [hlen] at hip hle
    omega

theorem extract_isHeap (lt : Int → Int → Bool) (S : LtSpec lt)
    (h : List Int) (hh : isHeap lt h) : isHeap lt (extract lt h).2 := by
  unfold extract
  split
  · exact hh
  · split
    · rename_i hemp hone
      intro i h2 hle
      rw [List.length_dropLast] at hle
      omega
    · rename_i hemp hone
      unfold isEmpty at hemp
      simp only [decide_eq_true_eq] at hemp
      have hlen2 : 2 ≤ h.length := by omega
      have hlen0 : (hset h.dropLast 1 (hget h h.length)).length
          = h.length - 1 := by
        rw [length_hset, List.length_dropLast]
      have hother : ∀ x, 2 ≤ x → x ≤ h.length - 1 →
          hget (hset h.dropLast 1 (hget h h.length)) x = hget h x := by
        intro x hx2 hxle
        rw [hget_hset_ne _ _ _ _ (by omega) (by omega) (by omega),
            hget_dropLast h x (by omega) hxle]
      have hA : ∀ i, 2 ≤ i → i ≤ (hset h.dropLast 1 (hget h h.length)).length →
          i / 2 ≠ 1 → Desc 1 (i / 2) →
          lt (hget (hset h.dropLast 1 (hget h h.length)) (i / 2))
             (hget (hset h.dropLast 1 (hget h h.length)) i) = false := by
        intro i h2 hle hne _
        rw [hlen0] at hle
        rw [hother i h2 hle, hother (i / 2) (by omega) (by omega)]
        exact hh i h2 (by omega)
      obtain ⟨R1, _, _⟩ := heapify_main lt S
        ((hset h.dropLast 1 (hget h h.length)).length + 1 - 1)
        (hset h.dropLast 1 (hget h h.length)) 1 rfl (by omega) hA
      intro i h2 hle
      rw [heapify_length lt ((hset h.dropLast 1 (hget h h.length)).length + 1 - 1)
        _ _ rfl] at hle
      exact R1 i h2 hle (Desc.root (i / 2) (by omega))

theorem deleteAtIndex_isHeap (lt : Int → Int → Bool) (S : LtSpec lt)
    (h : List Int) (index : Nat) (hh : isHeap lt h) :
    isHeap lt (deleteAtIndex lt h index).2 := by
  unfold deleteAtIndex
  split
  · exact hh
  · rename_i hrange
    push_neg at hrange
    split
    · rename_i hlast
      show isHeap lt h.dropLast
      intro i h2 hle
      unfold parent
      rw [List.length_dropLast] at hle
      rw [hget_dropLast h i (by omega) hle,
          hget_dropLast h (i / 2) (by omega) (by omega)]
      exact hh i h2 (by omega)
    · rename_i hlast
      have hidx1 : 1 ≤ index := hrange.1
      have hidxlt : index < h.length := by
        rcases Nat.eq_or_lt_of_le hrange.2 with h' | h'
        · exact absurd h' hlast
        · exact h'
      have hlen2 : (swap h index h.length).dropLast.length = h.length - 1 := by
        rw [List.length_dropLast, length_swap]
      have hval_idx : hget (swap h index h.length).dropLast index
          = hget h h.length := by
        rw [hget_dropLast _ index (by omega) (by rw [length_swap]; omega),
          hget_swap_left h index h.length hidx1 (by omega) (by omega) (by omega)]
      have hval_o : ∀ x, 1 ≤ x → x ≤ h.length - 1 → x ≠ index →
          hget (swap h index h.length).dropLast x = hget h x := by
        intro x hx1 hxle hxne
        rw [hget_dropLast _ x hx1 (by rw [length_swap]; omega),
          hget_swap_other h index h.length x hidx1 (by omega) hx1 hxne (by omega)]
      unfold restoreHeap
      split
      · rename_i hcond
        obtain ⟨hidx2, hlt⟩ := hcond
        unfold parent at hlt
        rw [hval_idx, hval_o (index / 2) (by omega) (by omega) (by omega)] at hlt
        apply siftUp_main lt S index _ hidx1 (by omega)
        · intro i h2 hle hik
          rw [hlen2] at hle
          by_cases hpi : i / 2 = index
          · rw [hpi, hval_idx, hval_o i (by omega) hle hik]
            have hgi : lt (hget h index) (hget h i) = false :=
              hpi ▸ hh i h2 (by omega)
            have hgp : lt (hget h (index / 2)) (hget h index) = false :=
              hh index (by omega) (by omega)
            have hgpi : lt (hget h (index / 2)) (hget h i) = false :=
              S.ge_trans _ _ _ hgp hgi
            rcases hv : lt (hget h h.length) (hget h i) with _ | _
            · rfl
            · exfalso
              have := S.lt_trans _ _ _ hlt hv
              rw [hgpi] at this
              exact Bool.false_ne_true this
          · rw [hval_o i (by omega) hle hik,
              hval_o (i / 2) (by omega) (by omega) hpi]
            exact hh i h2 (by omega)
        · intro _ i h2 hle hip
          rw [hlen2] at hle
          rw [hval_o (index / 2) (by omega) (by omega) (by omega),
            hval_o i (by omega) hle (by omega)]
          have hgi : lt (hget h index) (hget h i) = false :=
            hip ▸ hh i h2 (by omega)
          have hgp : lt (hget h (index / 2)) (hget h index) = false :=
            hh index (by omega) (by omega)
          exact S.ge_trans _ _ _ hgp hgi
      · rename_i hcond
        unfold parent at hcond
        show isHeap lt (heapify lt (swap h index h.length).dropLast index)
        have hA : ∀ i, 2 ≤ i → i ≤ (swap h index h.length).dropLast.length →
            i / 2 ≠ index → Desc index (i / 2) →
            lt (hget (swap h index h.length).dropLast (i / 2))
               (hget (swap h index h.length).dropLast i) = false := by
          intro i h2 hle hine hdesc
          rw [hlen2] at hle
          have hgt2 : index < i / 2 :=
            lt_of_le_of_ne hdesc.le (Ne.symm hine)
          rw [hval_o i (by omega) hle (by omega),
            hval_o (i / 2) (by omega) (by omega) (by omega)]
          exact hh i h2 (by omega)
        obtain ⟨D1, D2, D3⟩ := heapify_main lt S
          ((swap h index h.length).dropLast.length + 1 - index)
          (swap h index h.length).dropLast index rfl hidx1 hA
        intro i h2 hle
        unfold parent
        rw [heapify_length lt ((swap h index h.length).dropLast.length + 1 - index)
          _ _ rfl, hlen2] at hle
        by_cases hdesc : Desc index (i / 2)
        · exact D1 i h2 (by rw [hlen2]; omega) hdesc
        · have hine : i / 2 ≠ index := fun he => hdesc (by rw [he]; exact .refl _)
          by_cases hik : i = index
          · have hidx2 : 2 ≤ index := by omega
            have hlt2 : lt (hget (swap h index h.length).dropLast (index / 2))
                (hget (swap h index h.length).dropLast index) = false := by
              rcases hv : lt (hget (swap h index h.length).dropLast (index / 2))
                  (hget (swap h index h.length).dropLast index) with _ | _
              · rfl
              · exact absurd ⟨by omega, hv⟩ hcond
            rw [hik]
            rw [D2 (index / 2) (by omega) (not_desc_of_lt (by omega))]
            apply D3
            · exact hlt2
            · intro hle2
              rw [hlen2] at hle2
              rw [hval_o (2 * index) (by omega) (by omega) (by omega),
                hval_o (index / 2) (by omega) (by omega) (by omega)]
              have hgi : lt (hget h index) (hget h (2 * index)) = false := by
                have := hh (2 * index) (by omega) (by omega)
                unfold parent at this
                have h22 : 2 * index / 2 = index := by omega
                rw [h22] at this
                exact this
              have hgp : lt (hget h (index / 2)) (hget h index) = false := by
                have := hh index (by omega) (by omega)
                unfold parent at this
                exact this
              exact S.ge_trans _ _ _ hgp hgi
            · intro hle2
              rw [hlen2] at hle2
              rw [hval_o (2 * index + 1) (by omega) (by omega) (by omega),
                hval_o (index / 2) (by omega) (by omega) (by omega)]
              have hgi : lt (hget h index) (hget h (2 * index + 1)) = false := by
                have := hh (2 * index + 1) (by omega) (by omega)
                unfold parent at this
                have h22 : (2 * index + 1) / 2 = index := by omega
                rw [h22] at this
                exact this
              have hgp : lt (hget h (index / 2)) (hget h index) = false := by
                have := hh index (by omega) (by omega)
                unfold parent at this
                exact this
              exact S.ge_trans _ _ _ hgp hgi
          · have hndi : ¬ Desc index i := fun hd => hdesc (hd.ofChild hik)
            rw [D2 i (by omega) hndi, D2 (i / 2) (by omega) hdesc,
              hval_o i (by omega) hle hik,
              hval_o (i / 2) (by omega) (by omega) hine]
            exact hh i h2 (by omega)

theorem buildFrom_isHeap (lt : Int → Int → Bool) (S : LtSpec lt) :
    ∀ (k : Nat) (h : List Int),
    (∀ i, 2 ≤ i → i ≤ h.length → k < i / 2 →
      lt (hget h (i / 2)) (hget h i) = false) →
    isHeap lt (buildFrom lt h k) := by
  intro k
  induction k with
  | zero =>
    intro h hyp
    show isHeap lt h
    intro i h2 hle
    unfold parent
    exact hyp i h2 hle (by omega)
  | succ k ih =>
    intro h hyp
    show isHeap lt (buildFrom lt (heapify lt h (k + 1)) k)
    apply ih
    intro i h2 hle hk
    rw [heapify_length lt (h.length + 1 - (k + 1)) h (k + 1) rfl] at hle
    obtain ⟨M1, M2, _⟩ := heapify_main lt S (h.length + 1 - (k + 1)) h (k + 1)
      rfl (by omega)
      (fun i h2 hle hne hdesc =>
        hyp i h2 hle (lt_of_le_of_ne hdesc.le (Ne.symm hne)))
    by_cases hdesc : Desc (k + 1) (i / 2)
    · exact M1 i h2 (by omega) hdesc
    · have hine : i / 2 ≠ k + 1 := fun he => hdesc (by rw [he]; exact .refl _)
      have hii : i ≠ k + 1 := by omega
      have hndi : ¬ Desc (k + 1) i := fun hd => hdesc (hd.ofChild hii)
      rw [M2 i (by omega) hndi, M2 (i / 2) (by omega) hdesc]
      exact hyp i h2 hle (by omega)

theorem bulkLoad_isHeap (lt : Int → Int → Bool) (S : LtSpec lt)
    (values : List Int) : isHeap lt (bulkLoad lt values) := by
  unfold bulkLoad parent
  apply buildFrom_isHeap lt S
  intro i h2 hle hk
  omega

/-- The operations available from the UI, as listed by the invariant
claim: Insert, ExtractRoot, DeleteAtIndex, BulkLoad. -/
inductive HeapOp where
  | insertOp (v : Int)
  | extractRootOp
  | deleteOp (index : Nat)
  | loadOp (values : List Int)

/-- Effect of one UI operation on the stored heap.  `loadOp` keeps the
heap unchanged on an empty list, mirroring the input-validation guard of
`loadArrayHandler` (an empty parse result is rejected). -/
def applyOp (lt : Int → Int → Bool) (h : List Int) : HeapOp → List Int
  | .insertOp v => insert lt h v
  | .extractRootOp => (extract lt h).2
  | .deleteOp index => (deleteAtIndex lt h index).2
  | .loadOp values => if values.length = 0 then h else bulkLoad lt values

/-- Run a sequence of operations starting from the empty heap. -/
def runOps (lt : Int → Int → Bool) (ops : List HeapOp) : List Int :=
  ops.foldl (applyOp lt) []

theorem applyOp_isHeap (lt : Int → Int → Bool) (S : LtSpec lt)
    (h : List Int) (op : HeapOp) (hh : isHeap lt h) :
    isHeap lt (applyOp lt h op) := by
  cases op with
  | insertOp v => exact insert_isHeap lt S h v hh
  | extractRootOp => exact extract_isHeap lt S h hh
  | deleteOp index => exact deleteAtIndex_isHeap lt S h index hh
  | loadOp values =>
    show isHeap lt (if values.length = 0 then h else bulkLoad lt values)
    split
    · exact hh
    · exact bulkLoad_isHeap lt S values

theorem foldl_isHeap (lt : Int → Int → Bool) (S : LtSpec lt) :
    ∀ (ops : List HeapOp) (h : List Int), isHeap lt h →
    isHeap lt (List.foldl (applyOp lt) h ops) := by
  intro ops
  induction ops with
  | nil => intro h hh; exact hh
  | cons op rest ih =>
    intro h hh
    exact ih (applyOp lt h op) (applyOp_isHeap lt S h op hh)

theorem isHeap_nil (lt : Int → Int → Bool) : isHeap lt ([] : List Int) := by
  intro i h2 hle
  simp at hle
  omega

theorem runOps_isHeap (lt : Int → Int → Bool) (S : LtSpec lt)
    (ops : List HeapOp) : isHeap lt (runOps lt ops) :=
  foldl_isHeap lt S ops [] (isHeap_nil lt)

/-! ### The root dominates every element; extraction machinery -/

theorem mem_hget (h : List Int) (x : Int) (hx : x ∈ h) :
    ∃ i, 1 ≤ i ∧ i ≤ h.length ∧ hget h i = x := by
  obtain ⟨i, hi, he⟩ := List.mem_iff_getElem.mp hx
  refine ⟨i + 1, by omega, by omega, ?_⟩
  unfold hget
  simp [List.getD_eq_getElem?_getD, List.getElem?_eq_getElem, hi, he]

theorem root_max (lt : Int → Int → Bool) (S : LtSpec lt) (h : List Int)
    (hh : isHeap lt h) :
    ∀ i, 1 ≤ i → i ≤ h.length → lt (hget h 1) (hget h i) = false := by
  intro i
  induction i using Nat.strong_induction_on with
  | _ i ih =>
    intro h1 hle
    rcases Nat.lt_or_ge i 2 with hlt | hge
    · have : i = 1 := by omega
      rw [this]
      exact S.irrefl _
    · have hpar := hh i hge hle
      unfold parent at hpar
      exact S.ge_trans _ _ _ (ih (i / 2) (by omega) (by omega) (by omega)) hpar

theorem extract_length (lt : Int → Int → Bool) (h : List Int)
    (h0 : 0 < h.length) : (extract lt h).2.length = h.length - 1 := by
  unfold extract
  rw [if_neg (by unfold isEmpty; simp only [decide_eq_true_eq]; omega)]
  split
  · simp
  · show (heapify lt (hset h.dropLast 1 (hget h h.length)) 1).length = _
    rw [heapify_length lt ((hset h.dropLast 1 (hget h h.length)).length + 1 - 1)
      _ _ rfl, length_hset, List.length_dropLast]

theorem extract_root (lt : Int → Int → Bool) (h : List Int)
    (h0 : 0 < h.length) : (extract lt h).1 = some (hget h 1) := by
  unfold extract
  rw [if_neg (by unfold isEmpty; simp only [decide_eq_true_eq]; omega)]
  split <;> rfl

theorem extract_perm (lt : Int → Int → Bool) (h : List Int)
    (h0 : 0 < h.length) : (hget h 1 :: (extract lt h).2).Perm h := by
  unfold extract
  rw [if_neg (by unfold isEmpty; simp only [decide_eq_true_eq]; omega)]
  split
  · rename_i hone
    obtain ⟨a, ha⟩ := List.length_eq_one.mp (by omega : h.length = 1)
    subst ha
    show (hget [a] 1 :: ([a] : List Int).dropLast).Perm [a]
    unfold hget
    simp
  · rename_i hone
    have hlen : 2 ≤ h.length := by omega
    have hne : h ≠ [] := by
      intro he
      rw [he] at hlen
      simp at hlen
    have hdec : h.dropLast ++ [h.getLast hne] = h :=
      List.dropLast_append_getLast hne
    have hlast : hget h h.length = h.getLast hne := by
      unfold hget
      rw [List.getLast_eq_getElem, List.getD_eq_getElem?_getD]
      have hlt : h.length - 1 < h.length := by omega
      simp [List.getElem?_eq_getElem, hlt]
    obtain ⟨a, mid, hmid⟩ : ∃ a mid, h.dropLast = a :: mid := by
      cases hd : h.dropLast with
      | nil =>
        have := List.length_dropLast h
        rw [hd] at this
        simp at this
        omega
      | cons a mid => exact ⟨a, mid, rfl⟩
    have ha : hget h 1 = a := by
      have hd1 : hget h.dropLast 1 = hget h 1 :=
        hget_dropLast h 1 (by omega) (by omega)
      rw [← hd1, hmid]
      unfold hget
      simp
    have hset1 : hset h.dropLast 1 (hget h h.length)
        = hget h h.length :: mid := by
      rw [hmid]
      unfold hset
      simp
    show (hget h 1 :: heapify lt (hset h.dropLast 1 (hget h h.length)) 1).Perm h
    refine List.Perm.trans (List.Perm.cons _ (heapify_perm lt
      ((hset h.dropLast 1 (hget h h.length)).length + 1 - 1) _ 1 rfl
      (by omega))) ?_
    rw [hset1, ha, hlast]
    conv_rhs => rw [← hdec, hmid]
    show (a :: h.getLast hne :: mid).Perm (a :: (mid ++ [h.getLast hne]))
    exact List.Perm.cons a (List.perm_append_singleton _ _).symm

/-- Repeated `extract` until the heap reports empty (with enough fuel to
reach the empty heap). -/
def extractAll (lt : Int → Int → Bool) : Nat → List Int → List Int
  | 0, _ => []
  | fuel + 1, h =>
    if h.length = 0 then []
    else hget h 1 :: extractAll lt fuel (extract lt h).2

theorem extractAll_sorted_perm (lt : Int → Int → Bool) (S : LtSpec lt) :
    ∀ (fuel : Nat) (h : List Int), h.length ≤ fuel → isHeap lt h →
    (extractAll lt fuel h).Perm h ∧
    (extractAll lt fuel h).Pairwise (fun a b => lt a b = false) := by
  intro fuel
  induction fuel with
  | zero =>
    intro h hle hh
    have : h = [] := List.length_eq_zero.mp (by omega)
    rw [this]
    exact ⟨List.Perm.refl _, List.Pairwise.nil⟩
  | succ fuel ih =>
    intro h hle hh
    show (if h.length = 0 then []
        else hget h 1 :: extractAll lt fuel (extract lt h).2).Perm h ∧
      (if h.length = 0 then []
        else hget h 1 :: extractAll lt fuel (extract lt h).2).Pairwise
        (fun a b => lt a b = false)
    split
    · rename_i h0
      have : h = [] := List.length_eq_zero.mp h0
      rw [this]
      exact ⟨List.Perm.refl _, List.Pairwise.nil⟩
    · rename_i h0
      have hpos : 0 < h.length := by omega
      have hperm1 := extract_perm lt h hpos
      have hlen2 := extract_length lt h hpos
      have hh2 := extract_isHeap lt S h hh
      obtain ⟨ihp, ihs⟩ := ih (extract lt h).2 (by omega) hh2
      constructor
      · exact (List.Perm.cons _ ihp).trans hperm1
      · rw [List.pairwise_cons]
        refine ⟨?_, ihs⟩
        intro x hx
        have hx2 : x ∈ (extract lt h).2 := ihp.mem_iff.mp hx
        have hxh : x ∈ h := hperm1.mem_iff.mp (List.mem_cons_of_mem _ hx2)
        obtain ⟨i, h1i, hlei, hei⟩ := mem_hget h x hxh
        rw [← hei]
        exact root_max lt S h hh i h1i hlei

theorem buildFrom_perm (lt : Int → Int → Bool) :
    ∀ (k : Nat) (h : List Int), (buildFrom lt h k).Perm h := by
  intro k
  induction k with
  | zero => intro h; exact List.Perm.refl h
  | succ k ih =>
    intro h
    show (buildFrom lt (heapify lt h (k + 1)) k).Perm h
    exact (ih _).trans (heapify_perm lt (h.length + 1 - (k + 1)) h (k + 1)
      rfl (by omega))

theorem bulkLoad_perm (lt : Int → Int → Bool) (values : List Int) :
    (bulkLoad lt values).Perm values := buildFrom_perm lt _ values

/-- Bulk-load then extract repeatedly until empty: the full sorted output
of the heap built from `values`. -/
def heapSortSeq (lt : Int → Int → Bool) (values : List Int) : List Int :=
  extractAll lt values.length (bulkLoad lt values)

theorem heapSortSeq_sorted_perm (lt : Int → Int → Bool) (S : LtSpec lt)
    (values : List Int) :
    (heapSortSeq lt values).Perm values ∧
    (heapSortSeq lt values).Pairwise (fun a b => lt a b = false) := by
  have hbl := bulkLoad_perm lt values
  have hlen : (bulkLoad lt values).length = values.length := hbl.length_eq
  obtain ⟨hp, hs⟩ := extractAll_sorted_perm lt S values.length
    (bulkLoad lt values) (by omega) (bulkLoad_isHeap lt S values)
  exact ⟨hp.trans hbl, hs⟩

/-! ### Size accounting and the delete result -/

theorem hget_length_getLast (w : List Int) (hne : w ≠ []) :
    hget w w.length = w.getLast hne := by
  unfold hget
  rw [List.getLast_eq_getElem, List.getD_eq_getElem?_getD]
  have hlt : w.length - 1 < w.length := by
    cases w with
    | nil => exact absurd rfl hne
    | cons a t => simp
  simp [List.getElem?_eq_getElem, hlt]

theorem restoreHeap_length (lt : Int → Int → Bool) (h : List Int)
    (index : Nat) : (restoreHeap lt h index).length = h.length := by
  unfold restoreHeap
  split
  · exact siftUp_length lt index h
  · exact heapify_length lt (h.length + 1 - index) h index rfl

theorem restoreHeap_perm (lt : Int → Int → Bool) (h : List Int)
    (index : Nat) (hi : 1 ≤ index) (hle : index ≤ h.length) :
    (restoreHeap lt h index).Perm h := by
  unfold restoreHeap
  split
  · exact siftUp_perm lt index h hle
  · exact heapify_perm lt (h.length + 1 - index) h index rfl hi

theorem insert_length (lt : Int → Int → Bool) (h : List Int) (v : Int) :
    (insert lt h v).length = h.length + 1 := by
  unfold insert
  rw [siftUp_length]
  simp

theorem deleteAtIndex_out (lt : Int → Int → Bool) (h : List Int)
    (index : Nat) (hout : index < 1 ∨ index > h.length) :
    deleteAtIndex lt h index = ((false, none), h) := by
  unfold deleteAtIndex
  rw [if_pos hout]

theorem deleteAtIndex_in (lt : Int → Int → Bool) (h : List Int)
    (index : Nat) (h1 : 1 ≤ index) (h2 : index ≤ h.length) :
    (deleteAtIndex lt h index).1 = (true, some (hget h index)) ∧
    (hget h index :: (deleteAtIndex lt h index).2).Perm h ∧
    (deleteAtIndex lt h index).2.length = h.length - 1 := by
  unfold deleteAtIndex
  rw [if_neg (by omega)]
  have hne : h ≠ [] := by
    intro he
    rw [he] at h2
    simp at h2
    omega
  split
  · rename_i hlast
    refine ⟨rfl, ?_, by simp⟩
    show (hget h index :: h.dropLast).Perm h
    rw [hlast, hget_length_getLast h hne]
    conv_rhs => rw [← List.dropLast_append_getLast hne]
    exact (List.perm_append_singleton _ _).symm
  · rename_i hlast
    have hlt : index < h.length := by omega
    have hwne : swap h index h.length ≠ [] := by
      intro he
      have := length_swap h index h.length
      rw [he] at this
      simp at this
      omega
    have hwlast : hget (swap h index h.length) (swap h index h.length).length
        = hget h index := by
      rw [length_swap]
      exact hget_swap_right h index h.length (by omega) (by omega)
    have hperm : (hget h index :: (swap h index h.length).dropLast).Perm h := by
      have hg : (swap h index h.length).getLast hwne = hget h index := by
        rw [← hget_length_getLast _ hwne]
        exact hwlast
      have hd : (swap h index h.length).dropLast ++ [hget h index]
          = swap h index h.length := by
        conv_rhs => rw [← List.dropLast_append_getLast hwne]
        rw [hg]
      have hsp : (swap h index h.length).Perm h :=
        swap_perm h index h.length h1 h2 (by omega) (by omega) (by omega)
      refine List.Perm.trans ?_ hsp
      conv_rhs => rw [← hd]
      exact (List.perm_append_singleton _ _).symm
    have hdlen : (swap h index h.length).dropLast.length = h.length - 1 := by
      rw [List.length_dropLast, length_swap]
    refine ⟨rfl, ?_, ?_⟩
    · show (hget h index :: restoreHeap lt (swap h index h.length).dropLast
        index).Perm h
      refine List.Perm.trans (List.Perm.cons _ (restoreHeap_perm lt _ index h1
        (by omega))) hperm
    · show (restoreHeap lt (swap h index h.length).dropLast index).length = _
      rw [restoreHeap_length, hdlen]

/-! ### The animation step sequence -/

/-- The externally observable steps a heap operation emits to the renderer
collaborator, in emission order. -/
inductive Step where
  | highlight (index : Nat) (tag : String)
  | pause (ms : Nat)
  | move (i j : Nat)
  | logicalSwap (i j : Nat)
  | relabel (i j : Nat)
  | refreshArray
  | unhighlight (index : Nat)
  | refreshViz
  deriving DecidableEq

/-- The ordered step sequence of `BaseHeap.swap(i, j)`.  `nodeI` and
`nodeJ` record whether the two DOM lookups (`document.getElementById`)
found a node; the highlight, move and relabel emissions are guarded on
them exactly as in the source, while the pauses, the logical swap and the
array-display refresh are unconditional.  `100` is the settle delay and
`500` the `ANIMATION_DELAY` transition delay. -/
def swapSteps (nodeI nodeJ : Bool) (i j : Nat) : List Step :=
  (if nodeI then [Step.highlight i "swap"] else []) ++
  (if nodeJ then [Step.highlight j "swap"] else []) ++
  [Step.pause 100] ++
  (if nodeI && nodeJ then [Step.move i j] else []) ++
  [Step.pause 500] ++
  [Step.logicalSwap i j] ++
  (if nodeI && nodeJ then [Step.relabel i j] else []) ++
  [Step.refreshArray, Step.unhighlight i, Step.unhighlight j]

/-- Steps emitted by the sift-up loop of `insert` (all nodes rendered). -/
def siftUpTrace (lt : Int → Int → Bool) (h : List Int) (index : Nat) :
    List Step :=
  if 1 < index then
    if lt (hget h (parent index)) (hget h index) then
      swapSteps true true (parent index) index ++
        siftUpTrace lt (swap h (parent index) index) (parent index)
    else []
  else []
termination_by index
decreasing_by
  unfold parent
  omega

/-- Steps emitted by the recursive `heapify` (all nodes rendered). -/
def heapifyTrace (lt : Int → Int → Bool) (h : List Int) (index : Nat) :
    List Step :=
  if hne : sel lt h index ≠ index then
    swapSteps true true index (sel lt h index) ++
      heapifyTrace lt (swap h index (sel lt h index)) (sel lt h index)
  else []
termination_by h.length + 1 - index
decreasing_by
  rw [length_swap]
  have := sel_gt lt h index hne
  omega

/-- Steps emitted by `insert`: refresh after the push, highlight/pause
and unhighlight on the appended leaf, the sift-up swaps, and a final
refresh. -/
def insertTrace (lt : Int → Int → Bool) (h : List Int) (v : Int) :
    List Step :=
  [Step.refreshViz, Step.highlight (h.length + 1) "insert", Step.pause 500,
   Step.unhighlight (h.length + 1)] ++
  siftUpTrace lt (h ++ [v]) (h ++ [v]).length ++ [Step.refreshViz]

/-- Steps emitted by `extract`: nothing on the empty heap; otherwise
highlight/pause on the root (`ANIMATION_DELAY * 2 = 1000`), then (when
more than one element is stored) a refresh after the root replacement
followed by the sift-down swaps, and a final refresh. -/
def extractTrace (lt : Int → Int → Bool) (h : List Int) : List Step :=
  if isEmpty h then []
  else
    [Step.highlight 1 "extract", Step.pause 1000] ++
    (if h.length + 1 = 2 then []
     else Step.refreshViz ::
       heapifyTrace lt (hset h.dropLast 1 (hget h h.length)) 1) ++
    [Step.refreshViz]

/-! ### Storage accesses (1-based indices touched), in access order -/

/-- Indices accessed by `BaseHeap.swap`: the destructuring reads of both
slots followed by the writes of both slots. -/
def swapAcc (i j : Nat) : List Nat := [i, j, i, j]

/-- Indices accessed by `heapify`: the guarded reads of the two
comparisons (each child read happens only under its bound check, and the
candidate read only on the same short-circuit path), then the swap
accesses and the recursive call. -/
def heapifyAcc (lt : Int → Int → Bool) (h : List Int) (index : Nat) :
    List Int × List Nat :=
  if hne : sel lt h index ≠ index then
    ((heapifyAcc lt (swap h index (sel lt h index)) (sel lt h index)).1,
     (if left_child index < h.length + 1 then [left_child index, index]
      else []) ++
     (if right_child index < h.length + 1
      then [right_child index, selL lt h index] else []) ++
     swapAcc index (sel lt h index) ++
     (heapifyAcc lt (swap h index (sel lt h index)) (sel lt h index)).2)
  else (h,
     (if left_child index < h.length + 1 then [left_child index, index]
      else []) ++
     (if right_child index < h.length + 1
      then [right_child index, selL lt h index] else []))
termination_by h.length + 1 - index
decreasing_by
  all_goals rw [length_swap]
  all_goals have := sel_gt lt h index hne
  all_goals omega

/-- Indices accessed by the sift-up loop: the two reads of the loop
condition each iteration (only entered while `index > 1`), plus the swap
accesses when the condition holds. -/
def siftUpAcc (lt : Int → Int → Bool) (h : List Int) (index : Nat) :
    List Int × List Nat :=
  if 1 < index then
    if lt (hget h (parent index)) (hget h index) then
      ((siftUpAcc lt (swap h (parent index) index) (parent index)).1,
       [parent index, index] ++ swapAcc (parent index) index ++
       (siftUpAcc lt (swap h (parent index) index) (parent index)).2)
    else (h, [parent index, index])
  else (h, [])
termination_by index
decreasing_by
  all_goals unfold parent
  all_goals omega

/-- Indices accessed by `insert`: the push writes the fresh slot
`size + 1`, then the sift-up loop runs from there. -/
def insertAcc (lt : Int → Int → Bool) (h : List Int) (v : Int) : List Nat :=
  (h.length + 1) :: (siftUpAcc lt (h ++ [v]) (h ++ [v]).length).2

/-- Indices accessed by `extract`: read of the root, the pop read of the
last slot, the write of the root (when more than one element is stored),
then the sift-down. -/
def extractAcc (lt : Int → Int → Bool) (h : List Int) : List Nat :=
  if isEmpty h then []
  else if h.length + 1 = 2 then [1, h.length]
  else [1, h.length, 1] ++
    (heapifyAcc lt (hset h.dropLast 1 (hget h h.length)) 1).2

/-- Indices accessed by `restoreHeap`: the two reads of the sift-up test
(performed only when `index > 1`, by short-circuit), then the chosen
restoration pass. -/
def restoreAcc (lt : Int → Int → Bool) (h : List Int) (index : Nat) :
    List Nat :=
  if 1 < index then
    if lt (hget h (parent index)) (hget h index) then
      [parent index, index] ++ (siftUpAcc lt h index).2
    else [parent index, index] ++ (heapifyAcc lt h index).2
  else (heapifyAcc lt h index).2

/-- Indices accessed by `deleteAtIndex`: nothing when the bounds check
fails; otherwise the read of the deleted value, then either the pop of the
last slot, or the swap with the last slot, the pop, and the restore. -/
def deleteAcc (lt : Int → Int → Bool) (h : List Int) (index : Nat) :
    List Nat :=
  if index < 1 ∨ index > h.length then []
  else if index = h.length then [index, h.length]
  else [index] ++ swapAcc index h.length ++ [h.length] ++
    restoreAcc lt (swap h index h.length).dropLast index

theorem heapifyAcc_bounds (lt : Int → Int → Bool) :
    ∀ (m : Nat) (h : List Int) (index : Nat), h.length + 1 - index = m →
    1 ≤ index → ∀ a ∈ (heapifyAcc lt h index).2, 1 ≤ a ∧ a ≤ h.length := by
  intro m
  induction m using Nat.strong_induction_on with
  | _ m ih =>
    intro h index hm h1 a ha
    have ha1 : ∀ b, b ∈ (if left_child index < h.length + 1
        then [left_child index, index] else ([] : List Nat)) →
        1 ≤ b ∧ b ≤ h.length := by
      intro b hb
      split at hb
      · rename_i hg
        unfold left_child at hg hb
        simp at hb
        omega
      · simp at hb
    have ha2 : ∀ b, b ∈ (if right_child index < h.length + 1
        then [right_child index, selL lt h index] else ([] : List Nat)) →
        1 ≤ b ∧ b ≤ h.length := by
      intro b hb
      split at hb
      · rename_i hg
        unfold right_child at hg hb
        simp at hb
        rcases hb with hb | hb
        · omega
        · rcases selL_length lt h index with hs | hs <;> omega
      · simp at hb
    rw [heapifyAcc] at ha
    by_cases hne : sel lt h index ≠ index
    · rw [dif_pos hne] at ha
      have hgt := sel_gt lt h index hne
      simp only [List.mem_append] at ha
      rcases ha with ((ha | ha) | ha) | ha
      · exact ha1 a ha
      · exact ha2 a ha
      · unfold swapAcc at ha
        simp at ha
        rcases ha with ha | ha <;> omega
      · have := ih ((swap h index (sel lt h index)).length + 1 - sel lt h index)
          (by rw [length_swap]; omega) _ _ rfl (by omega) a ha
        rw [length_swap] at this
        exact this
    · rw [dif_neg hne] at ha
      simp only [List.mem_append] at ha
      rcases ha with ha | ha
      · exact ha1 a ha
      · exact ha2 a ha

theorem siftUpAcc_bounds (lt : Int → Int → Bool) :
    ∀ (index : Nat) (h : List Int), index ≤ h.length →
    ∀ a ∈ (siftUpAcc lt h index).2, 1 ≤ a ∧ a ≤ h.length := by
  intro index
  induction index using Nat.strong_induction_on with
  | _ index ih =>
    intro h hle a ha
    rw [siftUpAcc] at ha
    split at ha
    · rename_i hgt
      split at ha
      · simp only [List.mem_append] at ha
        rcases ha with (ha | ha) | ha
        · unfold parent at ha
          simp at ha
          rcases ha with ha | ha <;> omega
        · unfold swapAcc parent at ha
          simp at ha
          rcases ha with ha | ha <;> omega
        · have := ih (parent index) (by unfold parent; omega)
            (swap h (parent index) index)
            (by rw [length_swap]; unfold parent; omega) a ha
          rw [length_swap] at this
          exact this
      · unfold parent at ha
        simp at ha
        rcases ha with ha | ha <;> omega
    · simp at ha

theorem insertAcc_bounds (lt : Int → Int → Bool) (h : List Int) (v : Int) :
    ∀ a ∈ insertAcc lt h v, 1 ≤ a ∧ a ≤ h.length + 1 := by
  intro a ha
  unfold insertAcc at ha
  simp only [List.mem_cons] at ha
  rcases ha with ha | ha
  · omega
  · have := siftUpAcc_bounds lt (h ++ [v]).length (h ++ [v])
      (Nat.le_refl _) a ha
    simp at this
    omega

theorem extractAcc_bounds (lt : Int → Int → Bool) (h : List Int) :
    ∀ a ∈ extractAcc lt h, 1 ≤ a ∧ a ≤ h.length := by
  intro a ha
  unfold extractAcc at ha
  split at ha
  · simp at ha
  · rename_i hemp
    unfold isEmpty at hemp
    simp only [decide_eq_true_eq] at hemp
    split at ha
    · rename_i hone
      simp at ha
      rcases ha with ha | ha <;> omega
    · rename_i hone
      simp only [List.mem_append] at ha
      rcases ha with ha | ha
      · simp at ha
        rcases ha with ha | ha
        · omega
        · rcases ha with ha | ha <;> omega
      · have := heapifyAcc_bounds lt
          ((hset h.dropLast 1 (hget h h.length)).length + 1 - 1)
          (hset h.dropLast 1 (hget h h.length)) 1 rfl (by omega) a ha
        rw [length_hset, List.length_dropLast] at this
        omega

theorem restoreAcc_bounds (lt : Int → Int → Bool) (h : List Int)
    (index : Nat) (h1 : 1 ≤ index) (h2 : index ≤ h.length) :
    ∀ a ∈ restoreAcc lt h index, 1 ≤ a ∧ a ≤ h.length := by
  intro a ha
  unfold restoreAcc at ha
  split at ha
  · rename_i hgt
    have hcase : a ∈ ([parent index, index] : List Nat) ∨
        (a ∈ (siftUpAcc lt h index).2 ∨ a ∈ (heapifyAcc lt h index).2) := by
      split at ha <;> simp only [List.mem_append] at ha <;> tauto
    rcases hcase with ha2 | ha2 | ha2
    · unfold parent at ha2
      simp at ha2
      rcases ha2 with ha2 | ha2 <;> omega
    · exact siftUpAcc_bounds lt index h h2 a ha2
    · exact heapifyAcc_bounds lt (h.length + 1 - index) h index rfl h1 a ha2
  · exact heapifyAcc_bounds lt (h.length + 1 - index) h index rfl h1 a ha

theorem deleteAcc_bounds (lt : Int → Int → Bool) (h : List Int)
    (index : Nat) : ∀ a ∈ deleteAcc lt h index, 1 ≤ a ∧ a ≤ h.length := by
  intro a ha
  unfold deleteAcc at ha
  split at ha
  · simp at ha
  · rename_i hrange
    push_neg at hrange
    split at ha
    · simp at ha
      rcases ha with ha | ha <;> omega
    · rename_i hlast
      simp only [List.mem_append] at ha
      rcases ha with ((ha | ha) | ha) | ha
      · simp at ha
        omega
      · unfold swapAcc at ha
        simp at ha
        rcases ha with ha | ha <;> omega
      · simp at ha
        omega
      · have := restoreAcc_bounds lt (swap h index h.length).dropLast index
          hrange.1 (by rw [List.length_dropLast, length_swap]; omega) a ha
        rw [List.length_dropLast, length_swap] at this
        omega

/-! ### Tie-breaking behaviour of the sift-down selection -/

theorem sel_eq_self_of (lt : Int → Int → Bool) (h : List Int) (i : Nat)
    (hL : 2 * i < h.length + 1 → lt (hget h i) (hget h (2 * i)) = false)
    (hR : 2 * i + 1 < h.length + 1 →
      lt (hget h i) (hget h (2 * i + 1)) = false) :
    sel lt h i = i := by
  have hselL : selL lt h i = i := by
    unfold selL left_child
    split
    · rename_i hc
      rw [Bool.and_eq_true, decide_eq_true_eq] at hc
      have := hc.2
      rw [hL hc.1] at this
      simp at this
    · rfl
  unfold sel right_child
  rw [hselL]
  split
  · rename_i hc
    rw [Bool.and_eq_true, decide_eq_true_eq] at hc
    have := hc.2
    rw [hR hc.1] at this
    simp at this
  · rfl

theorem sel_eq_left_of (lt : Int → Int → Bool) (h : List Int) (i : Nat)
    (hr : 2 * i + 1 ≤ h.length)
    (hlt : lt (hget h i) (hget h (2 * i)) = true)
    (hnr : lt (hget h (2 * i)) (hget h (2 * i + 1)) = false) :
    sel lt h i = 2 * i := by
  have hcond : (decide (2 * i < h.length + 1) &&
      lt (hget h i) (hget h (2 * i))) = true := by
    rw [Bool.and_eq_true, decide_eq_true_eq]
    exact ⟨by omega, hlt⟩
  have hselL : selL lt h i = 2 * i := by
    unfold selL left_child
    rw [if_pos hcond]
  unfold sel right_child
  rw [hselL, if_neg (by rw [Bool.and_eq_true, decide_eq_true_eq, hnr]; simp)]

theorem sel_eq_right_inv (lt : Int → Int → Bool) (S : LtSpec lt)
    (h : List Int) (i : Nat) (hi : 1 ≤ i)
    (hsel : sel lt h i = 2 * i + 1) :
    lt (hget h i) (hget h (2 * i + 1)) = true ∧
    (2 * i ≤ h.length → lt (hget h (2 * i)) (hget h (2 * i + 1)) = true) := by
  have hne : sel lt h i ≠ i := by omega
  have hfst := (sel_child lt S h i hi hne).1
  rw [hsel] at hfst
  constructor
  · exact hfst
  · intro hlle
    have hg : (decide (right_child i < h.length + 1) &&
        lt (hget h (selL lt h i)) (hget h (right_child i))) = true := by
      by_contra hg
      have : sel lt h i = selL lt h i := by
        unfold sel
        rw [if_neg hg]
      rcases selL_length lt h i with hs | hs
      · rw [this, hs] at hsel
        omega
      · rw [this, hs.1] at hsel
        omega
    rw [Bool.and_eq_true] at hg
    rcases selL_length lt h i with hs | hs
    · rw [hs] at hg
      unfold right_child at hg
      have hLfalse : lt (hget h i) (hget h (2 * i)) = false :=
        selL_self lt h i hi hs hlle
      rcases hv : lt (hget h (2 * i)) (hget h (2 * i + 1)) with _ | _
      · exfalso
        have hcontra := S.ge_trans _ _ _ hLfalse hv
        rw [hg.2] at hcontra
        exact Bool.false_ne_true hcontra.symm
      · rfl
    · rw [hs.1] at hg
      unfold right_child at hg
      exact hg.2

/-! ### The claims -/

/-- C1: for every variant (Max or Min) and every sequence of Insert,
ExtractRoot, DeleteAtIndex, and BulkLoad operations starting from the
empty heap, after each operation completes, every index `i` with
`1 < i ≤ size` satisfies the variant ordering against its parent
(Max: `storage[Parent(i)] ≥ storage[i]`; Min: `storage[Parent(i)] ≤
storage[i]`). -/
theorem C1_invariant_preservation :
    ∀ (ops : List HeapOp) (k : Nat) (i : Nat),
      (2 ≤ i → i ≤ (runOps ltMax (ops.take k)).length →
        hget (runOps ltMax (ops.take k)) i ≤
          hget (runOps ltMax (ops.take k)) (parent i)) ∧
      (2 ≤ i → i ≤ (runOps ltMin (ops.take k)).length →
        hget (runOps ltMin (ops.take k)) (parent i) ≤
          hget (runOps ltMin (ops.take k)) i) := by
  intro ops k i
  constructor
  · intro h2 hle
    have hmax := runOps_isHeap ltMax ltMax_spec (ops.take k) i h2 hle
    simp only [ltMax, decide_eq_false_iff_not, not_lt] at hmax
    exact hmax
  · intro h2 hle
    have hmin := runOps_isHeap ltMin ltMin_spec (ops.take k) i h2 hle
    simp only [ltMin, decide_eq_false_iff_not, not_lt] at hmin
    exact hmin

/-- Witness for C1 at the concrete run Insert(3); Insert(5). -/
theorem C1_witness :
    hget (runOps ltMax ([HeapOp.insertOp 3, HeapOp.insertOp 5].take 2)) 2 ≤
      hget (runOps ltMax ([HeapOp.insertOp 3, HeapOp.insertOp 5].take 2))
        (parent 2) ∧
    hget (runOps ltMin ([HeapOp.insertOp 3, HeapOp.insertOp 5].take 2))
        (parent 2) ≤
      hget (runOps ltMin ([HeapOp.insertOp 3, HeapOp.insertOp 5].take 2)) 2 := by
  have hlenMax : 2 ≤ (runOps ltMax
      ([HeapOp.insertOp 3, HeapOp.insertOp 5].take 2)).length := by
    simp [runOps, applyOp, insert, siftUp, swap, hget, hset, parent, ltMax]
  have hlenMin : 2 ≤ (runOps ltMin
      ([HeapOp.insertOp 3, HeapOp.insertOp 5].take 2)).length := by
    simp [runOps, applyOp, insert, siftUp, swap, hget, hset, parent, ltMin]
  exact ⟨(C1_invariant_preservation [HeapOp.insertOp 3, HeapOp.insertOp 5]
      2 2).1 (by decide) hlenMax,
    (C1_invariant_preservation [HeapOp.insertOp 3, HeapOp.insertOp 5]
      2 2).2 (by decide) hlenMin⟩

/-- C2: for every list of values, BulkLoad followed by repeated
ExtractRoot until empty yields a sorted permutation of the values
(non-increasing for Max, non-decreasing for Min), and in particular
BulkLoad([5,3,8,1,9,2]) on the Max variant extracts 9,8,5,3,2,1. -/
theorem C2_round_trip :
    ∀ values : List Int,
      ((heapSortSeq ltMax values).Perm values ∧
       (heapSortSeq ltMax values).Pairwise (fun a b : Int => b ≤ a)) ∧
      ((heapSortSeq ltMin values).Perm values ∧
       (heapSortSeq ltMin values).Pairwise (fun a b : Int => a ≤ b)) ∧
      heapSortSeq ltMax [5, 3, 8, 1, 9, 2] = [9, 8, 5, 3, 2, 1] := by
  intro values
  obtain ⟨hp1, hs1⟩ := heapSortSeq_sorted_perm ltMax ltMax_spec values
  obtain ⟨hp2, hs2⟩ := heapSortSeq_sorted_perm ltMin ltMin_spec values
  refine ⟨⟨hp1, hs1.imp ?_⟩, ⟨hp2, hs2.imp ?_⟩, ?_⟩
  · intro a b hab
    simp only [ltMax, decide_eq_false_iff_not, not_lt] at hab
    exact hab
  · intro a b hab
    simp only [ltMin, decide_eq_false_iff_not, not_lt] at hab
    exact hab
  · set_option maxRecDepth 4000 in
    simp [heapSortSeq, extractAll, extract, bulkLoad, buildFrom, heapify,
      sel, selL, siftUp, hget, hset, swap, parent, left_child, right_child,
      isEmpty, ltMax]

/-- C3: Insert grows the storage by exactly one slot; ExtractRoot on a
non-empty heap, and DeleteAtIndex on an in-range index, shrink it by
exactly one; DeleteAtIndex on an out-of-range index leaves it unchanged.
Stated for an arbitrary variant comparison. -/
theorem C3_size_accounting :
    ∀ (lt : Int → Int → Bool) (h : List Int) (v : Int) (index : Nat),
      (insert lt h v).length = h.length + 1 ∧
      (0 < h.length → (extract lt h).2.length = h.length - 1) ∧
      (1 ≤ index → index ≤ h.length →
        (deleteAtIndex lt h index).2.length = h.length - 1) ∧
      (index < 1 ∨ index > h.length →
        (deleteAtIndex lt h index).2.length = h.length) := by
  intro lt h v index
  refine ⟨insert_length lt h v, extract_length lt h, ?_, ?_⟩
  · intro h1 h2
    exact (deleteAtIndex_in lt h index h1 h2).2.2
  · intro hout
    rw [deleteAtIndex_out lt h index hout]

/-- Witness for C3 on the two-element heap `[3, 1]` (and the out-of-range
index 5). -/
theorem C3_witness :
    (insert ltMax [3, 1] 7).length = ([3, 1] : List Int).length + 1 ∧
    (extract ltMax [3, 1]).2.length = ([3, 1] : List Int).length - 1 ∧
    (deleteAtIndex ltMax [3, 1] 1).2.length = ([3, 1] : List Int).length - 1 ∧
    (deleteAtIndex ltMax [3, 1] 5).2.length = ([3, 1] : List Int).length :=
  ⟨(C3_size_accounting ltMax [3, 1] 7 1).1,
   (C3_size_accounting ltMax [3, 1] 7 1).2.1 (by decide),
   (C3_size_accounting ltMax [3, 1] 7 1).2.2.1 (by decide) (by decide),
   (C3_size_accounting ltMax [3, 1] 7 5).2.2.2 (by decide)⟩

/-- C4: DeleteAtIndex with an index outside `[1, size]` returns a failure
result carrying no value and leaves the storage exactly as it was. -/
theorem C4_delete_out_of_range :
    ∀ (lt : Int → Int → Bool) (h : List Int) (index : Nat),
      index < 1 ∨ index > h.length →
      deleteAtIndex lt h index = ((false, none), h) := by
  intro lt h index hout
  exact deleteAtIndex_out lt h index hout

/-- Witness for C4 at index `size + 1 = 3` of a two-element heap. -/
theorem C4_witness :
    deleteAtIndex ltMax [1, 2] 3 = ((false, none), [1, 2]) :=
  C4_delete_out_of_range ltMax [1, 2] 3 (by decide)

/-- C5: on the empty heap both Peek and ExtractRoot return an explicit
empty indicator and leave the storage unchanged; on a non-empty heap Peek
returns the root value `storage[1]` (Peek is a pure query, so it has no
side effects by construction). -/
theorem C5_peek_empty :
    ∀ (lt : Int → Int → Bool) (h : List Int),
      (h.length = 0 → peek h = none ∧ extract lt h = (none, h)) ∧
      (0 < h.length → peek h = some (hget h 1)) := by
  intro lt h
  constructor
  · intro h0
    constructor
    · unfold peek
      rw [if_neg (by omega)]
    · unfold extract
      rw [if_pos (by unfold isEmpty; simp only [decide_eq_true_eq]; omega)]
  · intro h0
    unfold peek
    rw [if_pos (by omega)]

/-- Witness for C5: the empty heap and the heap `[7, 3]`. -/
theorem C5_witness :
    (peek ([] : List Int) = none ∧ extract ltMax [] = (none, [])) ∧
    peek [7, 3] = some (hget [7, 3] 1) :=
  ⟨(C5_peek_empty ltMax []).1 rfl, (C5_peek_empty ltMax [7, 3]).2 (by decide)⟩

/-- C6: on a heap satisfying the invariant, DeleteAtIndex at an in-range
index succeeds with exactly the value that occupied that slot, and the
resulting storage is the old storage minus one occurrence of that value
(stated as a permutation after re-adjoining the value). -/
theorem C6_delete_in_range :
    ∀ (lt : Int → Int → Bool) (h : List Int) (index : Nat),
      isHeap lt h → 1 ≤ index → index ≤ h.length →
      (deleteAtIndex lt h index).1 = (true, some (hget h index)) ∧
      (hget h index :: (deleteAtIndex lt h index).2).Perm h := by
  intro lt h index _ h1 h2
  exact ⟨(deleteAtIndex_in lt h index h1 h2).1,
    (deleteAtIndex_in lt h index h1 h2).2.1⟩

/-- Witness for C6 on the Max heap `[5, 3, 4]` at index 2. -/
theorem C6_witness :
    (deleteAtIndex ltMax [5, 3, 4] 2).1 = (true, some (hget [5, 3, 4] 2)) ∧
    (hget [5, 3, 4] 2 :: (deleteAtIndex ltMax [5, 3, 4] 2).2).Perm
      [5, 3, 4] :=
  C6_delete_in_range ltMax [5, 3, 4] 2 (by decide) (by decide) (by decide)

/-- C7: in the sift-down selection, ties prefer the current index over
either child; when both children tie with each other and beat the node,
the left child is selected; and the right child is selected only when it
is strictly more extreme than the node and than the left child. -/
theorem C7_tie_break :
    ∀ (h : List Int) (i : Nat), 1 ≤ i →
      ((2 * i ≤ h.length → hget h (2 * i) ≤ hget h i) →
       (2 * i + 1 ≤ h.length → hget h (2 * i + 1) ≤ hget h i) →
       sel ltMax h i = i) ∧
      (2 * i + 1 ≤ h.length → hget h i < hget h (2 * i) →
       hget h (2 * i) = hget h (2 * i + 1) → sel ltMax h i = 2 * i) ∧
      (sel ltMax h i = 2 * i + 1 →
       hget h i < hget h (2 * i + 1) ∧
       (2 * i ≤ h.length → hget h (2 * i) < hget h (2 * i + 1))) ∧
      ((2 * i ≤ h.length → hget h i ≤ hget h (2 * i)) →
       (2 * i + 1 ≤ h.length → hget h i ≤ hget h (2 * i + 1)) →
       sel ltMin h i = i) ∧
      (2 * i + 1 ≤ h.length → hget h (2 * i) < hget h i →
       hget h (2 * i) = hget h (2 * i + 1) → sel ltMin h i = 2 * i) ∧
      (sel ltMin h i = 2 * i + 1 →
       hget h (2 * i + 1) < hget h i ∧
       (2 * i ≤ h.length → hget h (2 * i + 1) < hget h (2 * i))) := by
  intro h i hi
  refine ⟨?_, ?_, ?_, ?_, ?_, ?_⟩
  · intro hL hR
    apply sel_eq_self_of
    · intro hg
      simp only [ltMax, decide_eq_false_iff_not, not_lt]
      exact hL (by omega)
    · intro hg
      simp only [ltMax, decide_eq_false_iff_not, not_lt]
      exact hR (by omega)
  · intro hr hlt heq
    apply sel_eq_left_of ltMax h i hr
    · simp only [ltMax, decide_eq_true_eq]
      exact hlt
    · simp only [ltMax, decide_eq_false_iff_not, not_lt]
      omega
  · intro hsel
    have := sel_eq_right_inv ltMax ltMax_spec h i hi hsel
    simp only [ltMax, decide_eq_true_eq] at this
    exact this
  · intro hL hR
    apply sel_eq_self_of
    · intro hg
      simp only [ltMin, decide_eq_false_iff_not, not_lt]
      exact hL (by omega)
    · intro hg
      simp only [ltMin, decide_eq_false_iff_not, not_lt]
      exact hR (by omega)
  · intro hr hlt heq
    apply sel_eq_left_of ltMin h i hr
    · simp only [ltMin, decide_eq_true_eq]
      exact hlt
    · simp only [ltMin, decide_eq_false_iff_not, not_lt]
      omega
  · intro hsel
    have := sel_eq_right_inv ltMin ltMin_spec h i hi hsel
    simp only [ltMin, decide_eq_true_eq] at this
    exact this

/-- Witness for C7: both children beat the node and tie with each other;
the left child is selected. -/
theorem C7_witness : sel ltMax [3, 5, 5] 1 = 2 * 1 :=
  (C7_tie_break [3, 5, 5] 1 (by decide)).2.1 (by decide) (by decide)
    (by decide)

/-- C8: with both nodes rendered (as they are whenever an operation runs,
since every operation refreshes the display over the occupied range
first), the swap of slots `i, j` emits exactly: highlight(i),
highlight(j), settle pause, the move instruction, transition pause, the
logical storage swap, the relabel, the array display refresh,
unhighlight(i), unhighlight(j); and under every combination of rendered
nodes the logical swap is never emitted before the move instruction. -/
theorem C8_swap_steps :
    ∀ (i j : Nat),
      swapSteps true true i j =
        [Step.highlight i "swap", Step.highlight j "swap", Step.pause 100,
         Step.move i j, Step.pause 500, Step.logicalSwap i j,
         Step.relabel i j, Step.refreshArray, Step.unhighlight i,
         Step.unhighlight j] ∧
      ∀ (nodeI nodeJ : Bool), ∃ pre post,
        swapSteps nodeI nodeJ i j = pre ++ Step.logicalSwap i j :: post ∧
        Step.move i j ∉ post := by
  intro i j
  constructor
  · rfl
  · intro nodeI nodeJ
    cases nodeI <;> cases nodeJ
    · exact ⟨[Step.pause 100, Step.pause 500],
        [Step.refreshArray, Step.unhighlight i, Step.unhighlight j],
        by simp [swapSteps], by simp⟩
    · exact ⟨[Step.highlight j "swap", Step.pause 100, Step.pause 500],
        [Step.refreshArray, Step.unhighlight i, Step.unhighlight j],
        by simp [swapSteps], by simp⟩
    · exact ⟨[Step.highlight i "swap", Step.pause 100, Step.pause 500],
        [Step.refreshArray, Step.unhighlight i, Step.unhighlight j],
        by simp [swapSteps], by simp⟩
    · exact ⟨[Step.highlight i "swap", Step.highlight j "swap",
        Step.pause 100, Step.move i j, Step.pause 500],
        [Step.relabel i j, Step.refreshArray, Step.unhighlight i,
         Step.unhighlight j],
        by simp [swapSteps], by simp⟩

/-- C9 fails as stated: on a one-element heap, ExtractRoot's step
sequence begins with the root highlight and contains no refresh before
it, so ExtractRoot does not emit a visualization refresh at the start of
the operation. -/
theorem C9_counterexample :
    extractTrace ltMax [1] =
      [Step.highlight 1 "extract", Step.pause 1000, Step.refreshViz] ∧
    (extractTrace ltMax [1]).head? ≠ some Step.refreshViz := by
  constructor
  · simp [extractTrace, isEmpty]
  · simp [extractTrace, isEmpty]

/-- C9 (amended): Insert and ExtractRoot each emit the highlight/pause on
the newly touched index before anything else of the sift phase; Insert
emits a full refresh as its first step and as its last step; ExtractRoot
emits its root highlight first (no refresh precedes it), a refresh as its
last step, and, when more than one element is stored, one more refresh
after the root replacement and before the sift-down swaps. -/
theorem C9_amended :
    (∀ (lt : Int → Int → Bool) (h : List Int) (v : Int),
      ∃ rest, insertTrace lt h v = Step.refreshViz ::
          Step.highlight (h.length + 1) "insert" :: Step.pause 500 :: rest ∧
        rest.getLast? = some Step.refreshViz) ∧
    (∀ (lt : Int → Int → Bool) (h : List Int), 0 < h.length →
      ∃ rest, extractTrace lt h = Step.highlight 1 "extract" ::
          Step.pause 1000 :: rest ∧
        rest.getLast? = some Step.refreshViz ∧
        (2 ≤ h.length → rest.head? = some Step.refreshViz)) := by
  constructor
  · intro lt h v
    refine ⟨(Step.unhighlight (h.length + 1) ::
      siftUpTrace lt (h ++ [v]) (h ++ [v]).length) ++ [Step.refreshViz],
      rfl, List.getLast?_concat _⟩
  · intro lt h h0
    unfold extractTrace
    rw [if_neg (by unfold isEmpty; simp only [decide_eq_true_eq]; omega)]
    by_cases hone : h.length + 1 = 2
    · rw [if_pos hone]
      exact ⟨[Step.refreshViz], rfl, rfl, by omega⟩
    · rw [if_neg hone]
      refine ⟨(Step.refreshViz ::
        heapifyTrace lt (hset h.dropLast 1 (hget h h.length)) 1) ++
        [Step.refreshViz], rfl, List.getLast?_concat _, fun _ => rfl⟩

/-- Witness for C9 (amended) on the heap `[2, 1]`. -/
theorem C9_witness :
    0 < ([2, 1] : List Int).length ∧
    ∃ rest, extractTrace ltMax [2, 1] = Step.highlight 1 "extract" ::
        Step.pause 1000 :: rest ∧
      rest.getLast? = some Step.refreshViz ∧
      (2 ≤ ([2, 1] : List Int).length → rest.head? = some Step.refreshViz) :=
  ⟨by decide, C9_amended.2 ltMax [2, 1] (by decide)⟩

/-- C10: every storage access performed by Insert, ExtractRoot,
DeleteAtIndex, the sift-down (heapify), the sift-up loop and the restore
step stays inside the occupied range (`[1, size+1]` for Insert, which
first appends a slot; `[1, size]` for the others); in particular the
sentinel slot 0 is never read or written. -/
theorem C10_access_bounds :
    ∀ (lt : Int → Int → Bool) (h : List Int) (v : Int) (index : Nat),
      (∀ a ∈ insertAcc lt h v, 1 ≤ a ∧ a ≤ h.length + 1) ∧
      (∀ a ∈ extractAcc lt h, 1 ≤ a ∧ a ≤ h.length) ∧
      (∀ a ∈ deleteAcc lt h index, 1 ≤ a ∧ a ≤ h.length) ∧
      (1 ≤ index → ∀ a ∈ (heapifyAcc lt h index).2,
        1 ≤ a ∧ a ≤ h.length) ∧
      (index ≤ h.length → ∀ a ∈ (siftUpAcc lt h index).2,
        1 ≤ a ∧ a ≤ h.length) ∧
      (1 ≤ index → index ≤ h.length →
        ∀ a ∈ restoreAcc lt h index, 1 ≤ a ∧ a ≤ h.length) := by
  intro lt h v index
  refine ⟨insertAcc_bounds lt h v, extractAcc_bounds lt h,
    deleteAcc_bounds lt h index, ?_, siftUpAcc_bounds lt index h, ?_⟩
  · intro h1
    exact heapifyAcc_bounds lt (h.length + 1 - index) h index rfl h1
  · intro h1 h2
    exact restoreAcc_bounds lt h index h1 h2

/-- Witness for C10: the slot the insert push writes is inside the new
occupied range. -/
theorem C10_witness : 1 ≤ 4 ∧ 4 ≤ ([3, 1, 2] : List Int).length + 1 :=
  (C10_access_bounds ltMax [3, 1, 2] 9 1).1 4 (by simp [insertAcc])

end Heaping
